import Mathlib

set_option maxHeartbeats 1000000

/-! Shallow embedding of the substring-search module (task_03/task_03.py) and
the float binary search (task_02.py).  Texts and patterns are sequences of
code units, modelled as List Char (Python str indexing yields code points,
matching Char).  Python ord is Char.toNat; Python % and // on integers with a
positive right operand agree with Int emod and ediv.  Fallible code (Python
IndexError) is modelled with Option. -/

/-- Default character used for out-of-range list reads.  Every read performed
by the embedded algorithms is in bounds, so this value is never observable. -/
def cdef : Char := ('a')

/-- Occurrence predicate: the pattern matches the text starting at index s. -/
def occursAt (text pattern : List Char) (s : Nat) : Prop :=
  s + pattern.length ≤ text.length ∧
    ∀ m, m < pattern.length → text.getD (s + m) cdef = pattern.getD m cdef

instance (text pattern : List Char) (s : Nat) : Decidable (occursAt text pattern s) := by
  unfold occursAt; infer_instance

/-- Specification-side definition, following the spec text: the smallest
0-based index at which the pattern occurs as a contiguous substring of the
text, and -1 when the pattern occurs nowhere.  (Any occurrence index is at
most text.length, so bounding the search below text.length + 1 is harmless.) -/
def firstOccurrenceSpec (text pattern : List Char) : Int :=
  if h : ∃ s, s < text.length + 1 ∧ occursAt text pattern s then ((Nat.find h : Nat) : Int)
  else -1

/-! ### Boyer-Moore: build_shift_table and boyer_moore_search -/

/-- Dictionary write table[c] = v, modelled as a function update. -/
def updateTable (t : Char → Option Nat) (c : Char) (v : Nat) : Char → Option Nat :=
  fun x => if x = c then some v else t x

/-- Largest index at which c occurs in chars (none when absent).  Used to
state what the last-write-wins dictionary build produces. -/
def lastIdx : List Char → Char → Option Nat
  | [], _ => none
  | a :: rest, c =>
    match lastIdx rest c with
    | some j => some (j + 1)
    | none => if a = c then some 0 else none

/-- Loop of build_shift_table: for index, char in enumerate(pattern[:-1]):
table[char] = length - index - 1, as successive dictionary writes. -/
def shiftFold (length : Nat) : List Char → Nat → (Char → Option Nat) → (Char → Option Nat)
  | [], _, t => t
  | c :: rest, idx, t => shiftFold length rest (idx + 1) (updateTable t c (length - idx - 1))

/-- Shift table of a non-empty pattern: the enumerate loop over pattern[:-1]
followed by table.setdefault(pattern[-1], length). -/
def shiftTableCore (pattern : List Char) : Char → Option Nat :=
  let length := pattern.length
  let base := shiftFold length pattern.dropLast 0 (fun _ => none)
  match pattern.getLast? with
  | none => base
  | some c =>
    match base c with
    | some _ => base
    | none => updateTable base c length

/-- build_shift_table(pattern).  On the empty pattern the source evaluates
pattern[-1], which raises IndexError; that outcome is modelled as none. -/
def build_shift_table (pattern : List Char) : Option (Char → Option Nat) :=
  if pattern = [] then none else some (shiftTableCore pattern)

/-- Inner right-to-left comparison loop of boyer_moore_search, with the
pattern offset counting down; true exactly when the source loop exits with
j < 0, i.e. the whole pattern matches the text at alignment i. -/
def bmMatchFrom (text pattern : List Char) (i : Nat) : Nat → Bool
  | 0 => true
  | j + 1 =>
    if text.getD (i + j) cdef = pattern.getD j cdef then bmMatchFrom text pattern i j
    else false

/-- Outer alignment loop of boyer_moore_search.  The advance is
shift_table.get(text[i + len(pattern) - 1], len(pattern)); the max with 1 is a
termination clamp, provably never active because every stored shift and the
default are positive (see shiftTable_getD_pos). -/
def bmLoop (text pattern : List Char) (table : Char → Option Nat) (i : Nat) : Int :=
  if h : (i : Int) ≤ (text.length : Int) - (pattern.length : Int) then
    if bmMatchFrom text pattern i pattern.length then (i : Int)
    else
      bmLoop text pattern table
        (i + max ((table (text.getD (i + pattern.length - 1) cdef)).getD pattern.length) 1)
  else -1
termination_by text.length + 1 - i
decreasing_by
  omega

/-- boyer_moore_search(text, pattern). -/
def boyer_moore_search (text pattern : List Char) : Int :=
  if pattern = [] ∨ text = [] then -1
  else bmLoop text pattern (shiftTableCore pattern) 0

/-! ### KMP: compute_lps and kmp_search -/

/-- Loop of compute_lps over state (lps, length, i).  The fallback
length = lps[length - 1] is clamped with min (length - 1) purely so that the
recursion is structurally terminating; the clamp is provably never active
because every entry of the lps array stays at most its index. -/
def lpsLoop (pattern : List Char) (lps : List Nat) (length i : Nat) : List Nat :=
  if h : i < pattern.length then
    if pattern.getD i cdef = pattern.getD length cdef then
      lpsLoop pattern (lps.set i (length + 1)) (length + 1) (i + 1)
    else if h2 : length ≠ 0 then
      lpsLoop pattern lps (min (lps.getD (length - 1) 0) (length - 1)) i
    else
      lpsLoop pattern (lps.set i 0) 0 (i + 1)
  else lps
termination_by 2 * (pattern.length - i) + length
decreasing_by
  · omega
  · omega
  · omega

/-- compute_lps(pattern): lps = [0] * len(pattern); length = 0; i = 1. -/
def compute_lps (pattern : List Char) : List Nat :=
  lpsLoop pattern (List.replicate pattern.length 0) 0 1

/-- Loop of kmp_search over cursors (i, j).  Reading pattern[j] is a partial
Python operation: when the pattern is empty it raises IndexError, modelled by
propagating none.  The source performs the j == M check once after the three
branches; here that check is replicated into each branch.  The fallback
j = lps[j - 1] carries the same provably inactive min clamp as lpsLoop. -/
def kmpLoop (text pattern : List Char) (lps : List Nat) (i j : Nat) : Option Int :=
  if h : i < text.length then
    match pattern[j]? with
    | none => none
    | some pc =>
      if pc = text.getD i cdef then
        if j + 1 = pattern.length then some (((i : Int) + 1) - ((j : Int) + 1))
        else kmpLoop text pattern lps (i + 1) (j + 1)
      else if h2 : j ≠ 0 then
        if min (lps.getD (j - 1) 0) (j - 1) = pattern.length then
          some ((i : Int) - ((min (lps.getD (j - 1) 0) (j - 1) : Nat) : Int))
        else kmpLoop text pattern lps i (min (lps.getD (j - 1) 0) (j - 1))
      else
        if j = pattern.length then some (((i : Int) + 1) - (j : Int))
        else kmpLoop text pattern lps (i + 1) j
  else some (-1)
termination_by 2 * (text.length - i) + j
decreasing_by
  · omega
  · omega
  · omega

/-- kmp_search(text, pattern); none models an uncaught IndexError. -/
def kmp_search (text pattern : List Char) : Option Int :=
  kmpLoop text pattern (compute_lps pattern) 0 0

/-! ### Rabin-Karp: polynomial_hash and rabin_karp_search -/

/-- Index-carrying loop of polynomial_hash: for i, char in enumerate(s):
hash_value = (hash_value + ord(char) * (base ** (n - i - 1) % modulus)) % modulus. -/
def polyHashAux (base modulus : Int) (n : Nat) : List Char → Nat → Int → Int
  | [], _, acc => acc
  | c :: rest, i, acc =>
    polyHashAux base modulus n rest (i + 1)
      ((acc + (c.toNat : Int) * (base ^ (n - i - 1) % modulus)) % modulus)

/-- polynomial_hash(s, base, modulus). -/
def polynomial_hash (s : List Char) (base modulus : Int) : Int :=
  polyHashAux base modulus s.length s 0 0

/-- Mathematical (non-reduced) value of a hash window suffix placed at
logical offset j inside a window of length n: sum of ord(c) * base ^ (n - j - 1 - k). -/
def sumPow (base : Int) (n : Nat) : List Char → Nat → Int
  | [], _ => 0
  | c :: rest, j => (c.toNat : Int) * base ^ (n - j - 1) + sumPow base n rest (j + 1)

/-- Rolling update of rabin_karp_search when the window slides one position:
current = (current - ord(old) * h_multiplier) % modulus;
current = (current * base + ord(new)) % modulus;
followed by the (dead, since emod is non-negative) negative renormalisation. -/
def rollHash (base modulus h_multiplier : Int) (old new cur : Int) : Int :=
  let c1 := (cur - old * h_multiplier) % modulus
  let c2 := (c1 * base + new) % modulus
  if c2 < 0 then c2 + modulus else c2

/-- Value of current_slice_hash at window position i of rabin_karp_search:
the scratch hash of the first window followed by i rolling updates. -/
def slideHash (text : List Char) (L : Nat) : Nat → Int
  | 0 => polynomial_hash (text.take L) 256 101
  | i + 1 =>
    rollHash 256 101 ((256 : Int) ^ (L - 1) % 101)
      (((text.getD i cdef).toNat : Int)) (((text.getD (i + L) cdef).toNat : Int))
      (slideHash text L i)

/-- Window loop of rabin_karp_search over position i.  The source tests hash
equality and then verifies the slice; both tests are combined into one
conjunction (the slice test is only reached when the hashes agree). -/
def rkLoop (text pattern : List Char) (substring_hash h_multiplier cur : Int) (i : Nat) : Int :=
  if h : i < text.length - pattern.length + 1 then
    if substring_hash = cur ∧ (text.drop i).take pattern.length = pattern then (i : Int)
    else
      if i < text.length - pattern.length then
        rkLoop text pattern substring_hash h_multiplier
          (rollHash 256 101 h_multiplier (((text.getD i cdef).toNat : Int))
            (((text.getD (i + pattern.length) cdef).toNat : Int)) cur)
          (i + 1)
      else rkLoop text pattern substring_hash h_multiplier cur (i + 1)
  else -1
termination_by text.length - pattern.length + 1 - i
decreasing_by
  · omega
  · omega

/-- rabin_karp_search(text, pattern). -/
def rabin_karp_search (text pattern : List Char) : Int :=
  if pattern.length = 0 ∨ text.length = 0 ∨ pattern.length > text.length then -1
  else
    rkLoop text pattern (polynomial_hash pattern 256 101)
      ((256 : Int) ^ (pattern.length - 1) % 101)
      (polynomial_hash (text.take pattern.length) 256 101) 0

/-! ### float_binary_search (task_02.py), over exact rationals -/

/-- Loop of float_binary_search over state (low, high, iterations, upper_bound).
Python ints are modelled as Int; arr[mid] is read with a default that is never
observable because 0 <= low <= mid <= high < len(arr) whenever it is read. -/
def fbsLoop (arr : List ℚ) (x : ℚ) (low high : Int) (iterations : Nat)
    (upper_bound : Option ℚ) : Nat × Option ℚ :=
  if h : low ≤ high then
    let mid := (low + high) / 2
    if x ≤ arr.getD mid.toNat 0 then
      fbsLoop arr x low (mid - 1) (iterations + 1) (some (arr.getD mid.toNat 0))
    else fbsLoop arr x (mid + 1) high (iterations + 1) upper_bound
  else (iterations, upper_bound)
termination_by (high + 1 - low).toNat
decreasing_by
  · omega
  · omega

/-- float_binary_search(arr, x). -/
def float_binary_search (arr : List ℚ) (x : ℚ) : Nat × Option ℚ :=
  fbsLoop arr x 0 ((arr.length : Int) - 1) 0 none

/-- Specification-side count of comparisons performed by float_binary_search:
the loop body evaluates the comparison arr[mid] >= x exactly once per
iteration, so the count adds one for every iteration taken. -/
def fbsCompareCount (arr : List ℚ) (x : ℚ) (low high : Int) : Nat :=
  if h : low ≤ high then
    (if x ≤ arr.getD ((low + high) / 2).toNat 0 then
      fbsCompareCount arr x low ((low + high) / 2 - 1)
    else fbsCompareCount arr x ((low + high) / 2 + 1) high) + 1
  else 0
termination_by (high + 1 - low).toNat
decreasing_by
  · omega
  · omega

/-- Specification-side smallest element of arr that is at least x, following
the spec wording: the minimum of the elements that are >= x. -/
def minGE (arr : List ℚ) (x : ℚ) : Option ℚ :=
  (arr.filter (fun a => decide (x ≤ a))).min?

/-- Border predicate used to state LPS correctness: b is the length of a
proper prefix of the length-n prefix of p that is also a suffix of it. -/
def isBorder (p : List Char) (n b : Nat) : Prop :=
  b < n ∧ ∀ m, m < b → p.getD m cdef = p.getD (n - b + m) cdef

instance (p : List Char) (n b : Nat) : Decidable (isBorder p n b) := by
  unfold isBorder; infer_instance

/-- Full LPS correctness at position k: v is the length of the longest
proper prefix of the length-(k+1) prefix of p that is also its suffix. -/
def lpsSpecAt (p : List Char) (k v : Nat) : Prop :=
  isBorder p (k + 1) v ∧ ∀ b, isBorder p (k + 1) b → b ≤ v

/-! ## Helper lemmas about the specification-side first occurrence -/

theorem occursAt_of (text pattern : List Char) (s : Nat)
    (h1 : s + pattern.length ≤ text.length)
    (h2 : ∀ m, m < pattern.length → text.getD (s + m) cdef = pattern.getD m cdef) :
    occursAt text pattern s := ⟨h1, h2⟩

theorem firstOccurrenceSpec_eq_of {t p : List Char} {s : Nat} (h1 : occursAt t p s)
    (h2 : ∀ k, k < s → ¬ occursAt t p k) : firstOccurrenceSpec t p = (s : Int) := by
  have hex : ∃ k, k < t.length + 1 ∧ occursAt t p k := ⟨s, by have := h1.1; omega, h1⟩
  unfold firstOccurrenceSpec
  rw [dif_pos hex]
  norm_cast
  have hle : Nat.find hex ≤ s := Nat.find_le ⟨by have := h1.1; omega, h1⟩
  have hge : ¬ (Nat.find hex < s) := fun hlt => h2 _ hlt (Nat.find_spec hex).2
  omega

theorem firstOccurrenceSpec_eq_neg {t p : List Char} (h : ∀ k, ¬ occursAt t p k) :
    firstOccurrenceSpec t p = -1 := by
  unfold firstOccurrenceSpec
  rw [dif_neg]
  rintro ⟨s, _, ho⟩
  exact h s ho

theorem firstOccurrenceSpec_eq_neg_of_long {t p : List Char} (h : t.length < p.length) :
    firstOccurrenceSpec t p = -1 :=
  firstOccurrenceSpec_eq_neg (fun k hk => by have := hk.1; omega)

/-! ## Lemmas about the Boyer-Moore shift table -/

theorem updateTable_self (t : Char → Option Nat) (c : Char) (v : Nat) :
    updateTable t c v c = some v := by simp [updateTable]

theorem updateTable_ne (t : Char → Option Nat) (c : Char) (v : Nat) (x : Char) (h : x ≠ c) :
    updateTable t c v x = t x := by simp [updateTable, h]

theorem shiftFold_eq (L : Nat) (chars : List Char) :
    ∀ (idx : Nat) (t : Char → Option Nat) (c : Char),
      shiftFold L chars idx t c =
        match lastIdx chars c with
        | some j => some (L - (idx + j) - 1)
        | none => t c := by
  induction chars with
  | nil => intro idx t c; rfl
  | cons a rest ih =>
    intro idx t c
    show shiftFold L rest (idx + 1) (updateTable t a (L - idx - 1)) c = _
    rw [ih]
    cases hrest : lastIdx rest c with
    | some j =>
      simp only [lastIdx, hrest]
      have : L - (idx + 1 + j) - 1 = L - (idx + (j + 1)) - 1 := by omega
      rw [this]
    | none =>
      by_cases hac : c = a
      · subst hac
        simp [lastIdx, hrest, updateTable]
      · have : a ≠ c := fun h => hac h.symm
        simp only [lastIdx, hrest, if_neg this, updateTable_ne t a _ c hac]

theorem lastIdx_lt {chars : List Char} {c : Char} {j : Nat} (h : lastIdx chars c = some j) :
    j < chars.length := by
  induction chars generalizing j with
  | nil => simp [lastIdx] at h
  | cons a rest ih =>
    simp only [lastIdx] at h
    cases hrest : lastIdx rest c with
    | some j0 =>
      rw [hrest] at h
      have := ih hrest
      simp only [Option.some.injEq] at h
      simp [← h]
      omega
    | none =>
      rw [hrest] at h
      by_cases hac : a = c
      · simp [hac] at h; simp [← h]
      · simp [hac] at h

theorem lastIdx_getD {chars : List Char} {c : Char} {j : Nat} (h : lastIdx chars c = some j) :
    chars.getD j cdef = c := by
  induction chars generalizing j with
  | nil => simp [lastIdx] at h
  | cons a rest ih =>
    simp only [lastIdx] at h
    cases hrest : lastIdx rest c with
    | some j0 =>
      rw [hrest] at h
      simp only [Option.some.injEq] at h
      subst h
      simpa using ih hrest
    | none =>
      rw [hrest] at h
      by_cases hac : a = c
      · simp [hac] at h; simp [← h, hac]
      · simp [hac] at h

theorem lastIdx_none_aux {chars : List Char} {c : Char} (h : lastIdx chars c = none) :
    ∀ k, k < chars.length → chars.getD k cdef ≠ c := by
  induction chars with
  | nil => intro k hk; simp at hk
  | cons a rest ih =>
    intro k hk
    simp only [lastIdx] at h
    cases hrest : lastIdx rest c with
    | some j0 => rw [hrest] at h; simp at h
    | none =>
      rw [hrest] at h
      by_cases hac : a = c
      · simp [hac] at h
      · cases k with
        | zero => simpa using hac
        | succ k0 =>
          simp only [List.getD_cons_succ]
          exact ih hrest k0 (by simpa using hk)

theorem lastIdx_max {chars : List Char} {c : Char} {j : Nat} (h : lastIdx chars c = some j) :
    ∀ k, j < k → k < chars.length → chars.getD k cdef ≠ c := by
  induction chars generalizing j with
  | nil => simp [lastIdx] at h
  | cons a rest ih =>
    intro k hjk hk
    simp only [lastIdx] at h
    cases hrest : lastIdx rest c with
    | some j0 =>
      rw [hrest] at h
      simp only [Option.some.injEq] at h
      subst h
      cases k with
      | zero => omega
      | succ k0 =>
        simp only [List.getD_cons_succ]
        exact ih hrest k0 (by omega) (by simpa using hk)
    | none =>
      rw [hrest] at h
      by_cases hac : a = c
      · simp [hac] at h
        subst h
        cases k with
        | zero => omega
        | succ k0 =>
          simp only [List.getD_cons_succ]
          intro hgc
          have hlen : k0 < rest.length := by simpa using hk
          exact absurd hgc (lastIdx_none_aux hrest k0 hlen)
      · simp [hac] at h

theorem getD_dropLast (p : List Char) (k : Nat) (hk : k < p.dropLast.length) :
    p.dropLast.getD k cdef = p.getD k cdef := by
  have hk2 : k < p.length := by
    have := p.length_dropLast
    omega
  rw [List.getD_eq_getElem _ _ hk, List.getD_eq_getElem _ _ hk2, List.getElem_dropLast]

theorem shiftTableCore_eq (p : List Char) (c : Char) :
    shiftTableCore p c =
      match lastIdx p.dropLast c with
      | some j => some (p.length - j - 1)
      | none =>
        match p.getLast? with
        | none => none
        | some lc => if c = lc then some p.length else none := by
  show (match p.getLast? with
        | none => shiftFold p.length p.dropLast 0 (fun _ => none)
        | some lc =>
          match shiftFold p.length p.dropLast 0 (fun _ => none) lc with
          | some _ => shiftFold p.length p.dropLast 0 (fun _ => none)
          | none => updateTable (shiftFold p.length p.dropLast 0 (fun _ => none)) lc p.length) c
      = _
  cases hl : p.getLast? with
  | none =>
    have hpnil : p = [] := List.getLast?_eq_none_iff.mp hl
    subst hpnil
    rfl
  | some lc =>
    dsimp only
    cases hbc : shiftFold p.length p.dropLast 0 (fun _ => none) lc with
    | some v =>
      dsimp only
      rw [shiftFold_eq] at hbc ⊢
      cases hli : lastIdx p.dropLast c with
      | some j => simp
      | none =>
        by_cases hclc : c = lc
        · subst hclc
          rw [hli] at hbc
          exact absurd hbc (by simp)
        · simp [hclc]
    | none =>
      dsimp only
      rw [shiftFold_eq] at hbc
      by_cases hclc : c = lc
      · subst hclc
        rw [updateTable_self]
        cases hli : lastIdx p.dropLast c with
        | some j => rw [hli] at hbc; simp at hbc
        | none => simp
      · rw [updateTable_ne _ _ _ _ hclc, shiftFold_eq]
        cases hli : lastIdx p.dropLast c with
        | some j => simp
        | none => simp [hclc]

theorem shiftTable_getD_le (p : List Char) (c : Char) :
    (shiftTableCore p c).getD p.length ≤ p.length := by
  rw [shiftTableCore_eq]
  cases hli : lastIdx p.dropLast c with
  | some j => simp; omega
  | none =>
    cases hgl : p.getLast? with
    | none => simp
    | some lc =>
      by_cases hclc : c = lc
      · simp [hclc]
      · simp [hclc]

theorem shiftTable_getD_pos (p : List Char) (hp : p ≠ []) (c : Char) :
    1 ≤ (shiftTableCore p c).getD p.length := by
  have hL : 1 ≤ p.length := List.length_pos.mpr hp
  rw [shiftTableCore_eq]
  cases hli : lastIdx p.dropLast c with
  | some j =>
    have hj := lastIdx_lt hli
    have hdl : p.dropLast.length = p.length - 1 := p.length_dropLast
    simp
    omega
  | none =>
    cases hgl : p.getLast? with
    | none => simp; omega
    | some lc =>
      by_cases hclc : c = lc
      · simp [hclc]; omega
      · simp [hclc]; omega

theorem shiftSafe (p : List Char) (hp : p ≠ []) (c : Char) (d : Nat) (hd1 : 1 ≤ d)
    (hd2 : d < (shiftTableCore p c).getD p.length) :
    p.getD (p.length - 1 - d) cdef ≠ c := by
  have hdl : p.dropLast.length = p.length - 1 := p.length_dropLast
  have hL : 1 ≤ p.length := List.length_pos.mpr hp
  rw [shiftTableCore_eq] at hd2
  cases hli : lastIdx p.dropLast c with
  | some j =>
    rw [hli] at hd2
    simp at hd2
    have hj := lastIdx_lt hli
    have hm1 : j < p.length - 1 - d := by omega
    have hm2 : p.length - 1 - d < p.dropLast.length := by omega
    have hne := lastIdx_max hli (p.length - 1 - d) hm1 hm2
    rwa [getD_dropLast _ _ hm2] at hne
  | none =>
    rw [hli] at hd2
    have hdL : d < p.length := by
      cases hgl : p.getLast? with
      | none => rw [hgl] at hd2; simpa using hd2
      | some lc =>
        rw [hgl] at hd2
        dsimp only at hd2
        by_cases hclc : c = lc
        · rw [if_pos hclc] at hd2; simpa using hd2
        · rw [if_neg hclc] at hd2; simpa using hd2
    have hm2 : p.length - 1 - d < p.dropLast.length := by omega
    have hne := lastIdx_none_aux hli (p.length - 1 - d) hm2
    rwa [getD_dropLast _ _ hm2] at hne

/-! ## Boyer-Moore search correctness -/

theorem bmMatchFrom_iff (text pattern : List Char) (i : Nat) :
    ∀ k, bmMatchFrom text pattern i k = true ↔
      ∀ j, j < k → text.getD (i + j) cdef = pattern.getD j cdef := by
  intro k
  induction k with
  | zero => simp [bmMatchFrom]
  | succ k ih =>
    unfold bmMatchFrom
    by_cases hc : text.getD (i + k) cdef = pattern.getD k cdef
    · rw [if_pos hc, ih]
      constructor
      · intro h j hj
        rcases Nat.lt_succ_iff_lt_or_eq.mp hj with hj2 | rfl
        · exact h j hj2
        · exact hc
      · intro h j hj
        exact h j (by omega)
    · rw [if_neg hc]
      simp only [Bool.false_eq_true, false_iff]
      intro h
      exact hc (h k (by omega))

theorem occursAt_iff_bm (text pattern : List Char) (i : Nat)
    (hb : i + pattern.length ≤ text.length) :
    occursAt text pattern i ↔ bmMatchFrom text pattern i pattern.length = true := by
  rw [bmMatchFrom_iff]
  exact ⟨fun h => h.2, fun h => ⟨hb, h⟩⟩

theorem bmLoop_correct_aux (text pattern : List Char) (hp : pattern ≠ []) :
    ∀ n i, text.length + 1 - i ≤ n → (∀ k, k < i → ¬ occursAt text pattern k) →
      bmLoop text pattern (shiftTableCore pattern) i = firstOccurrenceSpec text pattern := by
  intro n
  induction n with
  | zero =>
    intro i hi hocc
    rw [bmLoop,
      dif_neg (by omega : ¬ ((i : Int) ≤ (text.length : Int) - (pattern.length : Int)))]
    symm
    apply firstOccurrenceSpec_eq_neg
    intro k hk
    rcases lt_or_ge k i with h1 | h1
    · exact hocc k h1 hk
    · have := hk.1; omega
  | succ n ih =>
    intro i hi hocc
    rw [bmLoop]
    by_cases hg : (i : Int) ≤ (text.length : Int) - (pattern.length : Int)
    · rw [dif_pos hg]
      have hplen : 1 ≤ pattern.length := List.length_pos.mpr hp
      have hbound : i + pattern.length ≤ text.length := by omega
      by_cases hm : bmMatchFrom text pattern i pattern.length = true
      · rw [if_pos hm]
        exact (firstOccurrenceSpec_eq_of ((occursAt_iff_bm text pattern i hbound).mpr hm)
          hocc).symm
      · rw [if_neg hm]
        set c := text.getD (i + pattern.length - 1) cdef with hc
        have hpos := shiftTable_getD_pos pattern hp c
        have hle := shiftTable_getD_le pattern c
        rw [max_eq_left hpos]
        apply ih
        · omega
        · intro k hk hoc
          rcases lt_or_ge k i with h1 | h1
          · exact hocc k h1 hoc
          rcases eq_or_lt_of_le h1 with rfl | h2
          · exact hm ((occursAt_iff_bm text pattern i hbound).mp hoc)
          · have hd1 : 1 ≤ k - i := by omega
            have hd2 : k - i < (shiftTableCore pattern c).getD pattern.length := by omega
            have hsafe := shiftSafe pattern hp c (k - i) hd1 hd2
            apply hsafe
            have hm2 : pattern.length - 1 - (k - i) < pattern.length := by omega
            have h3 := hoc.2 (pattern.length - 1 - (k - i)) hm2
            have hidx : k + (pattern.length - 1 - (k - i)) = i + pattern.length - 1 := by omega
            rw [hidx] at h3
            exact h3.symm
    · rw [dif_neg hg]
      symm
      apply firstOccurrenceSpec_eq_neg
      intro k hoc
      rcases lt_or_ge k i with h1 | h1
      · exact hocc k h1 hoc
      · have := hoc.1; omega

theorem bm_correct (text pattern : List Char) (hp : pattern ≠ []) :
    boyer_moore_search text pattern = firstOccurrenceSpec text pattern := by
  unfold boyer_moore_search
  rcases eq_or_ne text [] with rfl | ht
  · rw [if_pos (Or.inr rfl)]
    symm
    apply firstOccurrenceSpec_eq_neg
    intro k hoc
    have h1 := hoc.1
    have h2 : 1 ≤ pattern.length := List.length_pos.mpr hp
    simp only [List.length_nil] at h1
    omega
  · rw [if_neg (by simp [hp, ht])]
    exact bmLoop_correct_aux text pattern hp (text.length + 1) 0 (by omega)
      (fun k hk => absurd hk (Nat.not_lt_zero k))

/-! ## Borders and LPS array correctness -/

theorem getD_set_self {l : List Nat} {i v : Nat} (h : i < l.length) :
    (l.set i v).getD i 0 = v := by
  rw [List.getD_eq_getElem _ _ (by simpa using h), List.getElem_set_self]

theorem getD_set_ne {l : List Nat} {i k v : Nat} (h : k ≠ i) :
    (l.set i v).getD k 0 = l.getD k 0 := by
  simp [List.getD_eq_getElem?_getD, List.getElem?_set_ne (fun hh => h hh.symm)]

theorem getD_replicate_zero (n k : Nat) : (List.replicate n 0).getD k 0 = 0 := by
  rcases lt_or_ge k n with h | h
  · rw [List.getD_eq_getElem _ _ (by simpa using h)]; simp
  · rw [List.getD_eq_default _ _ (by simpa using h)]

theorem isBorder_lt {p : List Char} {n b : Nat} (h : isBorder p n b) : b < n := h.1

theorem isBorder_zero (p : List Char) (n : Nat) (hn : 0 < n) : isBorder p n 0 :=
  ⟨hn, fun m hm => absurd hm (Nat.not_lt_zero m)⟩

theorem isBorder_chop {p : List Char} {n b : Nat} (h : isBorder p (n + 1) (b + 1)) :
    isBorder p n b := by
  obtain ⟨h1, h2⟩ := h
  refine ⟨by omega, fun m hm => ?_⟩
  have h3 := h2 m (by omega)
  have hidx : n + 1 - (b + 1) + m = n - b + m := by omega
  rwa [hidx] at h3

theorem isBorder_extend {p : List Char} {n b : Nat} (h : isBorder p n b)
    (he : p.getD b cdef = p.getD n cdef) : isBorder p (n + 1) (b + 1) := by
  obtain ⟨h1, h2⟩ := h
  refine ⟨by omega, fun m hm => ?_⟩
  rcases Nat.lt_succ_iff_lt_or_eq.mp hm with hm2 | heq
  · have h3 := h2 m hm2
    have hidx : n + 1 - (b + 1) + m = n - b + m := by omega
    rwa [hidx]
  · rw [heq]
    have hidx : n + 1 - (b + 1) + b = n := by omega
    rw [hidx]
    exact he

theorem isBorder_one {p : List Char} {n : Nat} (h : isBorder p (n + 1) 1) :
    p.getD 0 cdef = p.getD n cdef := by
  have h2 := h.2 0 (by omega)
  have hidx : n + 1 - 1 + 0 = n := by omega
  rwa [hidx] at h2

theorem isBorder_trans {p : List Char} {n len b : Nat} (hn : isBorder p n len)
    (hb : isBorder p len b) : isBorder p n b := by
  obtain ⟨h1, h2⟩ := hn
  obtain ⟨h3, h4⟩ := hb
  refine ⟨by omega, fun m hm => ?_⟩
  have e1 := h4 m hm
  have e2 := h2 (len - b + m) (by omega)
  have hidx : n - len + (len - b + m) = n - b + m := by omega
  rw [hidx] at e2
  exact e1.trans e2

theorem isBorder_restrict {p : List Char} {n len b : Nat} (hn : isBorder p n len)
    (hb : isBorder p n b) (hlt : b < len) : isBorder p len b := by
  obtain ⟨h1, h2⟩ := hn
  obtain ⟨h3, h4⟩ := hb
  refine ⟨hlt, fun m hm => ?_⟩
  have e1 := h4 m hm
  have e2 := h2 (len - b + m) (by omega)
  have hidx : n - len + (len - b + m) = n - b + m := by omega
  rw [hidx] at e2
  exact e1.trans e2.symm

theorem isBorder_top_elim {p : List Char} {i len : Nat}
    (hb : isBorder p (i + 1) (len + 1)) (hlt : len < i)
    (hne : ¬ p.getD i cdef = p.getD len cdef) : False := by
  have h2 := hb.2 len (by omega)
  have hidx : i + 1 - (len + 1) + len = i := by omega
  rw [hidx] at h2
  exact hne h2.symm

theorem lpsLoop_correct_aux (p : List Char) :
    ∀ n lps len i, 2 * (p.length - i) + len ≤ n →
      1 ≤ i → len < i → lps.length = p.length →
      (∀ k, k < i → lpsSpecAt p k (lps.getD k 0)) →
      (∀ k, lps.getD k 0 ≤ k) →
      isBorder p i len →
      (∀ b, b ≤ i → isBorder p (i + 1) b → b ≤ len + 1) →
      (lpsLoop p lps len i).length = p.length ∧
        ∀ k, k < p.length → lpsSpecAt p k ((lpsLoop p lps len i).getD k 0) := by
  intro n
  induction n with
  | zero =>
    intro lps len i hn hi1 hli hlen hB hinv hC hD
    rw [lpsLoop, dif_neg (by omega : ¬ i < p.length)]
    exact ⟨hlen, fun k hk => hB k (by omega)⟩
  | succ n ih =>
    intro lps len i hn hi1 hli hlen hB hinv hC hD
    rw [lpsLoop]
    by_cases hg : i < p.length
    · rw [dif_pos hg]
      by_cases heq : p.getD i cdef = p.getD len cdef
      · rw [if_pos heq]
        have hnewB : isBorder p (i + 1) (len + 1) := isBorder_extend hC heq.symm
        apply ih
        · omega
        · omega
        · omega
        · simpa using hlen
        · intro k hk
          rcases Nat.lt_succ_iff_lt_or_eq.mp hk with hk2 | hkeq
          · rw [getD_set_ne (by omega)]
            exact hB k hk2
          · rw [hkeq, getD_set_self (by omega)]
            exact ⟨hnewB, fun b hb => hD b (by have := isBorder_lt hb; omega) hb⟩
        · intro k
          rcases eq_or_ne k i with rfl | hne
          · rw [getD_set_self (by omega)]
            omega
          · rw [getD_set_ne hne]
            exact hinv k
        · exact hnewB
        · intro b hb hbB
          cases b with
          | zero => omega
          | succ b0 =>
            have := hD b0 (by omega) (isBorder_chop hbB)
            omega
      · rw [if_neg heq]
        by_cases hz : len ≠ 0
        · rw [dif_pos hz]
          obtain ⟨hlbB, hlbM⟩ := hB (len - 1) (by omega)
          have hl1 : len - 1 + 1 = len := by omega
          rw [hl1] at hlbB hlbM
          have hmin : min (lps.getD (len - 1) 0) (len - 1) = lps.getD (len - 1) 0 :=
            min_eq_left (by have := hinv (len - 1); omega)
          rw [hmin]
          have hvlt : lps.getD (len - 1) 0 < len := isBorder_lt hlbB
          apply ih
          · omega
          · omega
          · omega
          · exact hlen
          · exact hB
          · exact hinv
          · exact isBorder_trans hC hlbB
          · intro b hb hbB
            cases b with
            | zero => omega
            | succ b0 =>
              have hble : b0 + 1 ≤ len + 1 := hD (b0 + 1) hb hbB
              have hbne : b0 + 1 ≠ len + 1 := by
                intro hcontra
                rw [hcontra] at hbB
                exact isBorder_top_elim hbB hli heq
              have hchop : isBorder p i b0 := isBorder_chop hbB
              have hres : isBorder p len b0 := isBorder_restrict hC hchop (by omega)
              have := hlbM b0 hres
              omega
        · rw [dif_neg hz]
          have hlen0 : len = 0 := not_not.mp hz
          subst hlen0
          have hmax0 : ∀ b, isBorder p (i + 1) b → b = 0 := by
            intro b hbB
            have hble := hD b (by have := isBorder_lt hbB; omega) hbB
            cases b with
            | zero => rfl
            | succ b0 =>
              have hb0 : b0 = 0 := by omega
              subst hb0
              exact absurd (isBorder_one hbB).symm heq
          apply ih
          · omega
          · omega
          · omega
          · simpa using hlen
          · intro k hk
            rcases Nat.lt_succ_iff_lt_or_eq.mp hk with hk2 | hkeq
            · rw [getD_set_ne (by omega)]
              exact hB k hk2
            · rw [hkeq, getD_set_self (by omega)]
              refine ⟨isBorder_zero p (i + 1) (by omega), fun b hb => ?_⟩
              have := hmax0 b hb
              omega
          · intro k
            rcases eq_or_ne k i with rfl | hne
            · rw [getD_set_self (by omega)]
              omega
            · rw [getD_set_ne hne]
              exact hinv k
          · exact isBorder_zero p (i + 1) (by omega)
          · intro b hb hbB
            cases b with
            | zero => omega
            | succ b0 =>
              have := hmax0 b0 (isBorder_chop hbB)
              omega
    · rw [dif_neg hg]
      exact ⟨hlen, fun k hk => hB k (by omega)⟩

theorem compute_lps_correct (p : List Char) :
    (compute_lps p).length = p.length ∧
      ∀ k, k < p.length → lpsSpecAt p k ((compute_lps p).getD k 0) := by
  unfold compute_lps
  apply lpsLoop_correct_aux p (2 * p.length + 1)
  · omega
  · omega
  · omega
  · simp
  · intro k hk
    have hk0 : k = 0 := by omega
    subst hk0
    rw [getD_replicate_zero]
    exact ⟨isBorder_zero p 1 (by omega), fun b hb => by have := isBorder_lt hb; omega⟩
  · intro k
    rw [getD_replicate_zero]
    omega
  · exact isBorder_zero p 1 (by omega)
  · intro b hb hbB
    omega

theorem compute_lps_length (p : List Char) : (compute_lps p).length = p.length :=
  (compute_lps_correct p).1

theorem compute_lps_le (p : List Char) (k : Nat) : (compute_lps p).getD k 0 ≤ k := by
  rcases lt_or_ge k p.length with hk | hk
  · have h := ((compute_lps_correct p).2 k hk).1
    have := isBorder_lt h
    omega
  · rw [List.getD_eq_default _ _ (by rw [compute_lps_length]; omega)]
    omega

/-! ## KMP search correctness -/

theorem kmpLoop_correct_aux (text pattern : List Char) (hp : pattern ≠ []) :
    ∀ n i j, 2 * (text.length - i) + j ≤ n →
      j ≤ i → j < pattern.length →
      (∀ m, m < j → pattern.getD m cdef = text.getD (i - j + m) cdef) →
      (∀ s, s < i - j → ¬ occursAt text pattern s) →
      kmpLoop text pattern (compute_lps pattern) i j
        = some (firstOccurrenceSpec text pattern) := by
  intro n
  induction n with
  | zero =>
    intro i j hn hji hjM hW hNo
    rw [kmpLoop, dif_neg (by omega : ¬ i < text.length)]
    have hspec : firstOccurrenceSpec text pattern = -1 := by
      apply firstOccurrenceSpec_eq_neg
      intro s hso
      rcases lt_or_ge s (i - j) with h1 | h1
      · exact hNo s h1 hso
      · have := hso.1
        omega
    rw [hspec]
  | succ n ih =>
    intro i j hn hji hjM hW hNo
    rw [kmpLoop]
    by_cases hg : i < text.length
    · rw [dif_pos hg]
      have hpj : pattern[j]? = some (pattern.getD j cdef) := by
        rw [List.getElem?_eq_getElem hjM, List.getD_eq_getElem _ _ hjM]
      rw [hpj]
      dsimp only
      by_cases hmatch : pattern.getD j cdef = text.getD i cdef
      · rw [if_pos hmatch]
        by_cases hjM1 : j + 1 = pattern.length
        · rw [if_pos hjM1]
          have hocc : occursAt text pattern (i - j) := by
            constructor
            · omega
            · intro m hm
              rcases Nat.lt_succ_iff_lt_or_eq.mp (by omega : m < j + 1) with hm2 | hmeq
              · exact (hW m hm2).symm
              · rw [hmeq]
                have hidx : i - j + j = i := by omega
                rw [hidx]
                exact hmatch.symm
          rw [firstOccurrenceSpec_eq_of hocc hNo]
          congr 1
          omega
        · rw [if_neg hjM1]
          apply ih
          · omega
          · omega
          · omega
          · intro m hm
            rcases Nat.lt_succ_iff_lt_or_eq.mp hm with hm2 | hmeq
            · have h3 := hW m hm2
              have hidx : i + 1 - (j + 1) + m = i - j + m := by omega
              rw [hidx]
              exact h3
            · rw [hmeq]
              have hidx : i + 1 - (j + 1) + j = i := by omega
              rw [hidx]
              exact hmatch
          · intro s hs
            exact hNo s (by omega)
      · rw [if_neg hmatch]
        by_cases hz : j ≠ 0
        · rw [dif_pos hz]
          have hmin : min ((compute_lps pattern).getD (j - 1) 0) (j - 1)
              = (compute_lps pattern).getD (j - 1) 0 :=
            min_eq_left (by have := compute_lps_le pattern (j - 1); omega)
          rw [hmin]
          obtain ⟨hlbB, hlbM⟩ := (compute_lps_correct pattern).2 (j - 1) (by omega)
          have hl1 : j - 1 + 1 = j := by omega
          rw [hl1] at hlbB hlbM
          set v := (compute_lps pattern).getD (j - 1) 0 with hv
          have hvlt : v < j := isBorder_lt hlbB
          rw [if_neg (by omega : ¬ v = pattern.length)]
          apply ih
          · omega
          · omega
          · omega
          · intro m hm
            have hb := hlbB.2 m hm
            have hw := hW (j - v + m) (by omega)
            have hidx : i - j + (j - v + m) = i - v + m := by omega
            rw [hidx] at hw
            exact hb.trans hw
          · intro s hs hso
            rcases lt_or_ge s (i - j) with h1 | h1
            · exact hNo s h1 hso
            · rcases eq_or_lt_of_le h1 with heqs | h2
              · have hm := hso.2 j hjM
                have hidx : s + j = i := by omega
                rw [hidx] at hm
                exact hmatch hm.symm
              · have hb1 : v < i - s := by omega
                have hb2 : i - s < j := by omega
                have hbB : isBorder pattern j (i - s) := by
                  refine ⟨hb2, fun m hm => ?_⟩
                  have ho := hso.2 m (by omega)
                  have hw := hW (j - (i - s) + m) (by omega)
                  have hidx : i - j + (j - (i - s) + m) = s + m := by omega
                  rw [hidx] at hw
                  exact ho.symm.trans hw.symm
                have := hlbM (i - s) hbB
                omega
        · rw [dif_neg hz]
          have hj0 : j = 0 := not_not.mp hz
          subst hj0
          rw [if_neg (by have := List.length_pos.mpr hp; omega : ¬ (0 : Nat) = pattern.length)]
          apply ih
          · omega
          · omega
          · omega
          · intro m hm
            exact absurd hm (Nat.not_lt_zero m)
          · intro s hs hso
            rcases lt_or_ge s i with h1 | h1
            · exact hNo s (by omega) hso
            · have hseq : s = i := by omega
              subst hseq
              have hm := hso.2 0 (by have := List.length_pos.mpr hp; omega)
              rw [Nat.add_zero] at hm
              exact hmatch hm.symm
    · rw [dif_neg hg]
      have hspec : firstOccurrenceSpec text pattern = -1 := by
        apply firstOccurrenceSpec_eq_neg
        intro s hso
        rcases lt_or_ge s (i - j) with h1 | h1
        · exact hNo s h1 hso
        · have := hso.1
          omega
      rw [hspec]

theorem kmp_correct (text pattern : List Char) (hp : pattern ≠ []) :
    kmp_search text pattern = some (firstOccurrenceSpec text pattern) := by
  unfold kmp_search
  apply kmpLoop_correct_aux text pattern hp (2 * text.length + 1) 0 0
  · omega
  · omega
  · exact List.length_pos.mpr hp
  · intro m hm
    exact absurd hm (Nat.not_lt_zero m)
  · intro s hs
    exact absurd hs (by omega)

theorem kmp_nil_pattern (a : Char) (t : List Char) : kmp_search (a :: t) [] = none := by
  unfold kmp_search kmpLoop
  simp

theorem kmp_empty_text (p : List Char) : kmp_search [] p = some (-1) := by
  unfold kmp_search
  rw [kmpLoop, dif_neg (by simp)]

/-! ## Rabin-Karp: polynomial hash values and the rolling update -/

theorem polyHashAux_bounds (base modulus : Int) (hm : 0 < modulus) (n : Nat) :
    ∀ (s : List Char) (i : Nat) (acc : Int), 0 ≤ acc → acc < modulus →
      0 ≤ polyHashAux base modulus n s i acc ∧ polyHashAux base modulus n s i acc < modulus := by
  intro s
  induction s with
  | nil => intro i acc h1 h2; exact ⟨h1, h2⟩
  | cons c rest ih =>
    intro i acc h1 h2
    rw [polyHashAux]
    exact ih (i + 1) _ (Int.emod_nonneg _ (by omega)) (Int.emod_lt_of_pos _ hm)

theorem polynomial_hash_bounds (s : List Char) (base modulus : Int) (hm : 0 < modulus) :
    0 ≤ polynomial_hash s base modulus ∧ polynomial_hash s base modulus < modulus := by
  unfold polynomial_hash
  exact polyHashAux_bounds base modulus hm s.length s 0 0 le_rfl hm

theorem polyHashAux_eq_sumPow (base modulus : Int) (n : Nat) :
    ∀ (s : List Char) (i : Nat) (acc : Int),
      polyHashAux base modulus n s i (acc % modulus) = (acc + sumPow base n s i) % modulus := by
  intro s
  induction s with
  | nil =>
    intro i acc
    rw [polyHashAux, sumPow, Int.add_zero]
  | cons c rest ih =>
    intro i acc
    rw [polyHashAux, sumPow]
    have hinner : (acc % modulus + (c.toNat : Int) * (base ^ (n - i - 1) % modulus)) % modulus
        = (acc + (c.toNat : Int) * base ^ (n - i - 1)) % modulus := by
      have h1 : Int.ModEq modulus (acc % modulus) acc := Int.emod_emod_of_dvd acc dvd_rfl
      have h2 : Int.ModEq modulus (base ^ (n - i - 1) % modulus) (base ^ (n - i - 1)) :=
        Int.emod_emod_of_dvd _ dvd_rfl
      exact h1.add ((Int.ModEq.refl ((c.toNat : Int))).mul h2)
    rw [hinner, ih (i + 1) (acc + (c.toNat : Int) * base ^ (n - i - 1)), Int.add_assoc]

theorem polynomial_hash_eq_sumPow (s : List Char) (base modulus : Int) :
    polynomial_hash s base modulus = sumPow base s.length s 0 % modulus := by
  unfold polynomial_hash
  have h := polyHashAux_eq_sumPow base modulus s.length s 0 0
  rw [Int.zero_emod, Int.zero_add] at h
  exact h

theorem sumPow_append (base : Int) (n : Nat) (xs ys : List Char) :
    ∀ j, sumPow base n (xs ++ ys) j = sumPow base n xs j + sumPow base n ys (j + xs.length) := by
  induction xs with
  | nil =>
    intro j
    rw [List.nil_append, sumPow]
    simp
  | cons c rest ih =>
    intro j
    rw [List.cons_append, sumPow, sumPow, ih (j + 1)]
    have hidx : j + 1 + rest.length = j + (c :: rest).length := by
      simp [List.length_cons]
      omega
    rw [← hidx]
    ring

theorem sumPow_shift_mul (base : Int) (n : Nat) :
    ∀ (s : List Char) (j : Nat), j + 1 + s.length ≤ n →
      sumPow base n s (j + 1) * base = sumPow base n s j := by
  intro s
  induction s with
  | nil =>
    intro j h
    rw [sumPow, sumPow]
    ring
  | cons c rest ih =>
    intro j h
    rw [sumPow, sumPow]
    have hlen : j + 1 + 1 + rest.length ≤ n := by
      simp [List.length_cons] at h
      omega
    have hexp : base ^ (n - (j + 1) - 1) * base = base ^ (n - j - 1) := by
      rw [← pow_succ]
      congr 1
      omega
    have hrest := ih (j + 1) hlen
    rw [add_mul, mul_assoc, hexp, hrest]

theorem window_cons (text : List Char) (i L : Nat) (hb : i + (L + 1) ≤ text.length) :
    (text.drop i).take (L + 1) = text.getD i cdef :: (text.drop (i + 1)).take L := by
  have hi : i < text.length := by omega
  rw [List.drop_eq_getElem_cons hi, List.take_succ_cons, List.getD_eq_getElem _ _ hi]

theorem window_snoc (text : List Char) (i L : Nat) (hb : i + 1 + (L + 1) ≤ text.length) :
    (text.drop (i + 1)).take (L + 1)
      = (text.drop (i + 1)).take L ++ [text.getD (i + 1 + L) cdef] := by
  rw [List.take_succ]
  congr 1
  rw [List.getElem?_drop, List.getElem?_eq_getElem (by omega : i + 1 + L < text.length),
    List.getD_eq_getElem _ _ (by omega : i + 1 + L < text.length)]
  rfl

theorem window_length (text : List Char) (i L : Nat) (hb : i + L ≤ text.length) :
    ((text.drop i).take L).length = L := by
  rw [List.length_take, List.length_drop]
  omega

theorem rollHash_eq (text : List Char) (L i : Nat) (hL : 1 ≤ L)
    (hb : i + 1 + L ≤ text.length) :
    rollHash 256 101 ((256 : Int) ^ (L - 1) % 101) (((text.getD i cdef).toNat : Int))
        (((text.getD (i + L) cdef).toNat : Int))
        (polynomial_hash ((text.drop i).take L) 256 101)
      = polynomial_hash ((text.drop (i + 1)).take L) 256 101 := by
  obtain ⟨L0, rfl⟩ : ∃ L0, L = L0 + 1 := ⟨L - 1, by omega⟩
  have hidx0 : i + (L0 + 1) = i + 1 + L0 := by omega
  have hw1 := window_cons text i L0 (by omega)
  have hw2 := window_snoc text i L0 (by omega)
  have hlu : ((text.drop (i + 1)).take L0).length = L0 := window_length text (i + 1) L0 (by omega)
  rw [hw1, hidx0, hw2, polynomial_hash_eq_sumPow, polynomial_hash_eq_sumPow]
  rw [List.length_cons, List.length_append, List.length_singleton, hlu]
  unfold rollHash
  dsimp only
  have hexp1 : L0 + 1 - 1 = L0 := by omega
  rw [hexp1]
  set b : Int := 256 with hbdef
  set W0 : Int := ((text.getD i cdef).toNat : Int) with hW0
  set NW : Int := ((text.getD (i + 1 + L0) cdef).toNat : Int) with hNW
  set u : List Char := (text.drop (i + 1)).take L0 with hu
  have hS : sumPow b (L0 + 1) (text.getD i cdef :: u) 0
      = W0 * b ^ L0 + sumPow b (L0 + 1) u 1 := by
    rw [sumPow]
    have : L0 + 1 - 0 - 1 = L0 := by omega
    rw [this]
  have hshift : sumPow b (L0 + 1) u 1 * b = sumPow b (L0 + 1) u 0 := by
    have := sumPow_shift_mul b (L0 + 1) u 0 (by rw [hlu]; omega)
    simpa using this
  have happ : sumPow b (L0 + 1) (u ++ [text.getD (i + 1 + L0) cdef]) 0
      = sumPow b (L0 + 1) u 0 + NW := by
    rw [sumPow_append, hlu]
    have h1 : sumPow b (L0 + 1) [text.getD (i + 1 + L0) cdef] (0 + L0) = NW := by
      rw [sumPow, sumPow]
      have : L0 + 1 - (0 + L0) - 1 = 0 := by omega
      rw [this, pow_zero, mul_one, Int.add_zero, hNW]
    rw [h1]
  rw [happ]
  set S : Int := sumPow b (L0 + 1) (text.getD i cdef :: u) 0 with hSdef
  set T : Int := sumPow b (L0 + 1) u 1 with hT
  have hc1 : Int.ModEq 101 ((S % 101 - W0 * (b ^ L0 % 101)) % 101) T := by
    have ha : Int.ModEq 101 (S % 101) S := Int.emod_emod_of_dvd S dvd_rfl
    have hb2 : Int.ModEq 101 (b ^ L0 % 101) (b ^ L0) := Int.emod_emod_of_dvd _ dvd_rfl
    have h1 : Int.ModEq 101 (S % 101 - W0 * (b ^ L0 % 101)) (S - W0 * b ^ L0) :=
      ha.sub ((Int.ModEq.refl W0).mul hb2)
    have h2 : S - W0 * b ^ L0 = T := by
      rw [hS]
      ring
    have hx : Int.ModEq 101 ((S % 101 - W0 * (b ^ L0 % 101)) % 101)
        (S % 101 - W0 * (b ^ L0 % 101)) := Int.emod_emod_of_dvd _ dvd_rfl
    exact hx.trans (h2 ▸ h1)
  have hc2 : ((S % 101 - W0 * (b ^ L0 % 101)) % 101 * b + NW) % 101
      = (T * b + NW) % 101 := (hc1.mul_right b).add_right NW
  rw [hc2, hshift]
  rw [if_neg (by
    have := Int.emod_nonneg (sumPow b (L0 + 1) u 0 + NW) (by norm_num : (101 : Int) ≠ 0)
    omega)]

theorem rollHash_range (base modulus h_multiplier old nw cur : Int) (hm : 0 < modulus) :
    0 ≤ rollHash base modulus h_multiplier old nw cur
      ∧ rollHash base modulus h_multiplier old nw cur < modulus := by
  unfold rollHash
  have h1 : 0 ≤ ((cur - old * h_multiplier) % modulus * base + nw) % modulus :=
    Int.emod_nonneg _ (by omega)
  have h2 : ((cur - old * h_multiplier) % modulus * base + nw) % modulus < modulus :=
    Int.emod_lt_of_pos _ hm
  rw [if_neg (by omega)]
  exact ⟨h1, h2⟩

theorem slideHash_eq (text : List Char) (L : Nat) (hL : 1 ≤ L) :
    ∀ i, i + L ≤ text.length →
      slideHash text L i = polynomial_hash ((text.drop i).take L) 256 101 := by
  intro i
  induction i with
  | zero =>
    intro h
    rw [slideHash, List.drop_zero]
  | succ i ih =>
    intro h
    rw [slideHash, ih (by omega)]
    exact rollHash_eq text L i hL (by omega)

theorem slideHash_range (text : List Char) (L i : Nat) :
    0 ≤ slideHash text L i ∧ slideHash text L i < 101 := by
  induction i with
  | zero =>
    rw [slideHash]
    exact polynomial_hash_bounds _ _ _ (by norm_num)
  | succ i ih =>
    rw [slideHash]
    exact rollHash_range _ _ _ _ _ _ (by norm_num)

theorem occursAt_iff_slice (text pattern : List Char) (i : Nat)
    (hb : i + pattern.length ≤ text.length) :
    occursAt text pattern i ↔ (text.drop i).take pattern.length = pattern := by
  have hlen : ((text.drop i).take pattern.length).length = pattern.length :=
    window_length text i pattern.length hb
  constructor
  · intro h
    apply List.ext_getElem hlen
    intro j h1 h2
    rw [List.getElem_take, List.getElem_drop]
    have h3 := h.2 j h2
    rwa [List.getD_eq_getElem _ _ (by omega), List.getD_eq_getElem _ _ h2] at h3
  · intro h
    refine ⟨hb, fun m hm => ?_⟩
    have h2 := congrArg (fun l => l.getD m cdef) h
    dsimp at h2
    rw [List.getD_eq_getElem _ _ (by rw [hlen]; omega)] at h2
    rw [List.getElem_take, List.getElem_drop] at h2
    rwa [List.getD_eq_getElem _ _ (by omega : i + m < text.length)]

theorem rkLoop_correct_aux (text pattern : List Char) (hp : 1 ≤ pattern.length)
    (hlen : pattern.length ≤ text.length) :
    ∀ n i, text.length - pattern.length + 1 - i ≤ n →
      (∀ k, k < i → ¬ occursAt text pattern k) →
      rkLoop text pattern (polynomial_hash pattern 256 101)
        ((256 : Int) ^ (pattern.length - 1) % 101)
        (slideHash text pattern.length i) i = firstOccurrenceSpec text pattern := by
  intro n
  induction n with
  | zero =>
    intro i hn hNo
    rw [rkLoop, dif_neg (by omega : ¬ i < text.length - pattern.length + 1)]
    symm
    apply firstOccurrenceSpec_eq_neg
    intro k hk
    rcases lt_or_ge k i with h1 | h1
    · exact hNo k h1 hk
    · have := hk.1; omega
  | succ n ih =>
    intro i hn hNo
    rw [rkLoop]
    by_cases hg : i < text.length - pattern.length + 1
    · rw [dif_pos hg]
      have hbound : i + pattern.length ≤ text.length := by omega
      by_cases hhit : polynomial_hash pattern 256 101 = slideHash text pattern.length i
          ∧ (text.drop i).take pattern.length = pattern
      · rw [if_pos hhit]
        have hocc : occursAt text pattern i := (occursAt_iff_slice text pattern i hbound).mpr hhit.2
        exact (firstOccurrenceSpec_eq_of hocc hNo).symm
      · rw [if_neg hhit]
        have hnocc_i : ¬ occursAt text pattern i := by
          intro hoc
          apply hhit
          have hslice := (occursAt_iff_slice text pattern i hbound).mp hoc
          constructor
          · rw [slideHash_eq text pattern.length hp i hbound, hslice]
          · exact hslice
        by_cases hlast : i < text.length - pattern.length
        · rw [if_pos hlast]
          have hstep := ih (i + 1) (by omega) (by
            intro k hk
            rcases lt_or_ge k i with h1 | h1
            · exact hNo k h1
            · have hki : k = i := by omega
              rw [hki]
              exact hnocc_i)
          rw [slideHash] at hstep
          exact hstep
        · rw [if_neg hlast]
          rw [rkLoop, dif_neg (by omega : ¬ i + 1 < text.length - pattern.length + 1)]
          symm
          apply firstOccurrenceSpec_eq_neg
          intro k hk
          rcases lt_or_ge k i with h1 | h1
          · exact hNo k h1 hk
          rcases eq_or_lt_of_le h1 with heq | h2
          · rw [← heq] at hk
            exact hnocc_i hk
          · have := hk.1; omega
    · rw [dif_neg hg]
      symm
      apply firstOccurrenceSpec_eq_neg
      intro k hk
      rcases lt_or_ge k i with h1 | h1
      · exact hNo k h1 hk
      · have := hk.1; omega

theorem rk_correct (text pattern : List Char) (hp : pattern ≠ []) :
    rabin_karp_search text pattern = firstOccurrenceSpec text pattern := by
  unfold rabin_karp_search
  have hp1 : 1 ≤ pattern.length := List.length_pos.mpr hp
  by_cases hguard : pattern.length = 0 ∨ text.length = 0 ∨ pattern.length > text.length
  · rw [if_pos hguard]
    symm
    apply firstOccurrenceSpec_eq_neg
    intro k hk
    have := hk.1
    rcases hguard with h | h | h <;> omega
  · rw [if_neg hguard]
    push_neg at hguard
    have h0 : polynomial_hash (text.take pattern.length) 256 101
        = slideHash text pattern.length 0 := by rw [slideHash]
    rw [h0]
    exact rkLoop_correct_aux text pattern hp1 (by omega) (text.length + 1) 0 (by omega)
      (fun k hk => absurd hk (Nat.not_lt_zero k))

/-! ## float_binary_search correctness -/

theorem sorted_getD_le (arr : List ℚ) (hs : arr.Sorted (· ≤ ·)) (a b : Nat)
    (hab : a ≤ b) (hb : b < arr.length) : arr.getD a 0 ≤ arr.getD b 0 := by
  rw [List.getD_eq_getElem _ _ (by omega), List.getD_eq_getElem _ _ hb]
  have h := List.Sorted.rel_get_of_le hs (a := ⟨a, by omega⟩) (b := ⟨b, hb⟩) (by simpa using hab)
  simpa using h

theorem foldl_min_of_le (as : List ℚ) :
    ∀ a : ℚ, (∀ y ∈ as, a ≤ y) → as.foldl min a = a := by
  induction as with
  | nil => intro a _; rfl
  | cons b bs ih =>
    intro a h
    rw [List.foldl_cons, min_eq_left (h b (by simp))]
    exact ih a (fun y hy => h y (by simp [hy]))

theorem sorted_min_eq_head (l : List ℚ) (hs : l.Sorted (· ≤ ·)) : l.min? = l.head? := by
  cases l with
  | nil => rfl
  | cons a as =>
    rw [List.min?_cons', foldl_min_of_le as a (List.sorted_cons.mp hs).1]
    rfl

theorem filter_ge_eq_drop (arr : List ℚ) (x : ℚ) (idx : Nat) (hidx : idx ≤ arr.length)
    (hlo : ∀ k, k < idx → arr.getD k 0 < x)
    (hhi : ∀ k, idx ≤ k → k < arr.length → x ≤ arr.getD k 0) :
    arr.filter (fun a => decide (x ≤ a)) = arr.drop idx := by
  have h := List.take_append_drop idx arr
  calc arr.filter (fun a => decide (x ≤ a))
      = ((arr.take idx) ++ (arr.drop idx)).filter (fun a => decide (x ≤ a)) := by rw [h]
    _ = (arr.take idx).filter (fun a => decide (x ≤ a))
          ++ (arr.drop idx).filter (fun a => decide (x ≤ a)) := List.filter_append _ _
    _ = [] ++ (arr.drop idx) := by
        congr 1
        · rw [List.filter_eq_nil_iff]
          intro a ha
          obtain ⟨k, hk, hak⟩ := List.mem_iff_getElem.mp ha
          have hkidx : k < idx := by
            have := List.length_take idx arr
            omega
          have hval : arr.getD k 0 = a := by
            rw [List.getD_eq_getElem _ _ (by omega), ← hak, List.getElem_take]
          simp only [decide_eq_true_eq]
          rw [← hval]
          exact not_le.mpr (hlo k hkidx)
        · rw [List.filter_eq_self]
          intro a ha
          obtain ⟨k, hk, hak⟩ := List.mem_iff_getElem.mp ha
          have hlen2 : (arr.drop idx).length = arr.length - idx := List.length_drop idx arr
          have hval : arr.getD (idx + k) 0 = a := by
            rw [List.getD_eq_getElem _ _ (by omega), ← hak, List.getElem_drop]
          simp only [decide_eq_true_eq]
          rw [← hval]
          exact hhi (idx + k) (by omega) (by omega)
    _ = arr.drop idx := List.nil_append _

theorem fbsExit (arr : List ℚ) (x : ℚ) (hs : arr.Sorted (· ≤ ·))
    (low high : Int) (iters : Nat) (ub : Option ℚ)
    (hnle : ¬ low ≤ high)
    (h0 : 0 ≤ low) (h1 : high ≤ (arr.length : Int) - 1) (h2 : low ≤ high + 1)
    (hLeft : ∀ k : Nat, (k : Int) < low → arr.getD k 0 < x)
    (hUB : (ub = none ∧ high = (arr.length : Int) - 1) ∨
      (ub = some (arr.getD (high + 1).toNat 0) ∧ high + 1 < (arr.length : Int)
        ∧ x ≤ arr.getD (high + 1).toNat 0)) :
    fbsLoop arr x low high iters ub
      = (iters + fbsCompareCount arr x low high, minGE arr x) := by
  rw [fbsLoop, dif_neg hnle, fbsCompareCount, dif_neg hnle]
  rcases hUB with ⟨rfl, hhigh⟩ | ⟨rfl, hlt, hx⟩
  · have hfil : arr.filter (fun a => decide (x ≤ a)) = [] := by
      rw [List.filter_eq_nil_iff]
      intro a ha
      obtain ⟨k, hk, hak⟩ := List.mem_iff_getElem.mp ha
      have hval : arr.getD k 0 = a := by
        rw [List.getD_eq_getElem _ _ hk, hak]
      simp only [decide_eq_true_eq]
      rw [← hval]
      exact not_le.mpr (hLeft k (by omega))
    unfold minGE
    rw [hfil]
    simp
  · have hidxlen : (high + 1).toNat ≤ arr.length := by omega
    have hfil : arr.filter (fun a => decide (x ≤ a)) = arr.drop (high + 1).toNat := by
      apply filter_ge_eq_drop arr x (high + 1).toNat hidxlen
      · intro k hk
        exact hLeft k (by omega)
      · intro k hk1 hk2
        calc x ≤ arr.getD (high + 1).toNat 0 := hx
          _ ≤ arr.getD k 0 := sorted_getD_le arr hs (high + 1).toNat k hk1 hk2
    unfold minGE
    rw [hfil, sorted_min_eq_head _ (hs.sublist (List.drop_sublist (high + 1).toNat arr)),
      List.head?_drop, List.getElem?_eq_getElem (by omega : (high + 1).toNat < arr.length),
      List.getD_eq_getElem _ _ (by omega : (high + 1).toNat < arr.length)]
    rw [Nat.add_zero]

theorem fbsLoop_correct_aux (arr : List ℚ) (x : ℚ) (hs : arr.Sorted (· ≤ ·)) :
    ∀ (n : Nat) (low high : Int) (iters : Nat) (ub : Option ℚ),
      (high + 1 - low).toNat ≤ n →
      0 ≤ low → high ≤ (arr.length : Int) - 1 → low ≤ high + 1 →
      (∀ k : Nat, (k : Int) < low → arr.getD k 0 < x) →
      ((ub = none ∧ high = (arr.length : Int) - 1) ∨
        (ub = some (arr.getD (high + 1).toNat 0) ∧ high + 1 < (arr.length : Int)
          ∧ x ≤ arr.getD (high + 1).toNat 0)) →
      fbsLoop arr x low high iters ub
        = (iters + fbsCompareCount arr x low high, minGE arr x) := by
  intro n
  induction n with
  | zero =>
    intro low high iters ub hn h0 h1 h2 hLeft hUB
    exact fbsExit arr x hs low high iters ub (by omega) h0 h1 h2 hLeft hUB
  | succ n ih =>
    intro low high iters ub hn h0 h1 h2 hLeft hUB
    by_cases hlh : low ≤ high
    · rw [fbsLoop, dif_pos hlh, fbsCompareCount, dif_pos hlh]
      dsimp only
      have hmid1 : low ≤ (low + high) / 2 := by omega
      have hmid2 : (low + high) / 2 ≤ high := by omega
      by_cases hge : x ≤ arr.getD ((low + high) / 2).toNat 0
      · rw [if_pos hge, if_pos hge]
        rw [show iters + (fbsCompareCount arr x low ((low + high) / 2 - 1) + 1)
            = (iters + 1) + fbsCompareCount arr x low ((low + high) / 2 - 1) from by omega]
        apply ih
        · omega
        · exact h0
        · omega
        · omega
        · exact hLeft
        · right
          refine ⟨?_, by omega, ?_⟩
          · rw [show (low + high) / 2 - 1 + 1 = (low + high) / 2 from by omega]
          · rw [show (low + high) / 2 - 1 + 1 = (low + high) / 2 from by omega]
            exact hge
      · rw [if_neg hge, if_neg hge]
        rw [show iters + (fbsCompareCount arr x ((low + high) / 2 + 1) high + 1)
            = (iters + 1) + fbsCompareCount arr x ((low + high) / 2 + 1) high from by omega]
        apply ih
        · omega
        · omega
        · exact h1
        · omega
        · intro k hk
          rcases lt_or_ge (k : Int) low with h3 | h3
          · exact hLeft k h3
          · have hkmid : k ≤ ((low + high) / 2).toNat := by omega
            have hmlen : ((low + high) / 2).toNat < arr.length := by omega
            calc arr.getD k 0 ≤ arr.getD ((low + high) / 2).toNat 0 :=
                  sorted_getD_le arr hs k _ hkmid hmlen
              _ < x := not_le.mp hge
        · exact hUB
    · exact fbsExit arr x hs low high iters ub hlh h0 h1 h2 hLeft hUB

theorem fbs_correct (arr : List ℚ) (x : ℚ) (hs : arr.Sorted (· ≤ ·)) :
    float_binary_search arr x
      = (fbsCompareCount arr x 0 ((arr.length : Int) - 1), minGE arr x) := by
  unfold float_binary_search
  have h := fbsLoop_correct_aux arr x hs ((arr.length : Int)).toNat 0 ((arr.length : Int) - 1)
    0 none (by omega) (by omega) (by omega) (by omega)
    (fun k hk => absurd hk (by omega)) (Or.inl ⟨rfl, rfl⟩)
  simpa using h

/-! ## Additional helper lemmas for the claim theorems -/

theorem lastIdx_eq_some (chars : List Char) (c : Char) (j : Nat) (hj : j < chars.length)
    (hget : chars.getD j cdef = c)
    (hmax : ∀ k, k < chars.length → j < k → chars.getD k cdef ≠ c) :
    lastIdx chars c = some j := by
  cases hli : lastIdx chars c with
  | none => exact absurd hget (lastIdx_none_aux hli j hj)
  | some j2 =>
    rcases lt_trichotomy j2 j with h | h | h
    · exact absurd hget (lastIdx_max hli j h hj)
    · rw [h]
    · exact absurd (lastIdx_getD hli) (hmax j2 (lastIdx_lt hli) h)

theorem getLast?_eq_getD (p : List Char) (hp : p ≠ []) :
    p.getLast? = some (p.getD (p.length - 1) cdef) := by
  have hL : 1 ≤ p.length := List.length_pos.mpr hp
  rw [List.getLast?_eq_getElem?, List.getElem?_eq_getElem (by omega),
    List.getD_eq_getElem _ _ (by omega)]

/-! ## Claim theorems -/

/-- C4: During rabin_karp_search, for every window position i as the window of
length L slides over the text (1 ≤ L and i + L ≤ text.length), the
incrementally updated window hash -- slideHash text L i, which is by
construction the value of current_slice_hash after i rolling updates exactly as
performed in rkLoop -- equals polynomial_hash recomputed from scratch on that
window's contents (text.drop i).take L with base 256 and modulus 101, and lies
in the interval [0, 101). -/
theorem spec_c4 (text : List Char) (L i : Nat) (hL : 1 ≤ L) (hb : i + L ≤ text.length) :
    slideHash text L i = polynomial_hash ((text.drop i).take L) 256 101 ∧
      0 ≤ slideHash text L i ∧ slideHash text L i < 101 :=
  ⟨slideHash_eq text L hL i hb, (slideHash_range text L i).1, (slideHash_range text L i).2⟩

/-- Witness for C4 at text "abcd", window length 2, window position 1. -/
theorem spec_c4_witness :
    slideHash [('a'), ('b'), ('c'), ('d')] 2 1
        = polynomial_hash (([('a'), ('b'), ('c'), ('d')].drop 1).take 2) 256 101 ∧
      0 ≤ slideHash [('a'), ('b'), ('c'), ('d')] 2 1 ∧
      slideHash [('a'), ('b'), ('c'), ('d')] 2 1 < 101 :=
  spec_c4 [('a'), ('b'), ('c'), ('d')] 2 1 (by decide) (by decide)

/-- C7: for every non-empty pattern of length L, build_shift_table succeeds and
produces the table characterised as follows: every stored shift is positive;
each code unit that occurs among the first L - 1 positions, with largest such
index j, is mapped to L - 1 - j; the final unit is mapped to L exactly when it
is not already a key; and units occurring nowhere among the first L - 1
positions and different from the final unit are not keys. -/
theorem spec_c7 (pattern : List Char) (hp : pattern ≠ []) :
    build_shift_table pattern = some (shiftTableCore pattern) ∧
      (∀ c v, shiftTableCore pattern c = some v → 1 ≤ v) ∧
      (∀ j c, j < pattern.length - 1 → pattern.getD j cdef = c →
        (∀ k, k < pattern.length - 1 → j < k → pattern.getD k cdef ≠ c) →
        shiftTableCore pattern c = some (pattern.length - 1 - j)) ∧
      (∀ c, (∀ k, k < pattern.length - 1 → pattern.getD k cdef ≠ c) →
        pattern.getD (pattern.length - 1) cdef = c →
        shiftTableCore pattern c = some pattern.length) ∧
      (∀ c, (∀ k, k < pattern.length - 1 → pattern.getD k cdef ≠ c) →
        pattern.getD (pattern.length - 1) cdef ≠ c →
        shiftTableCore pattern c = none) := by
  have hdl : pattern.dropLast.length = pattern.length - 1 := pattern.length_dropLast
  have hL : 1 ≤ pattern.length := List.length_pos.mpr hp
  refine ⟨by unfold build_shift_table; rw [if_neg hp], ?_, ?_, ?_, ?_⟩
  · intro c v hv
    have := shiftTable_getD_pos pattern hp c
    rw [hv] at this
    simpa using this
  · intro j c hj hget hmax
    have hli : lastIdx pattern.dropLast c = some j := by
      apply lastIdx_eq_some _ _ _ (by omega)
      · rw [getD_dropLast _ _ (by omega)]
        exact hget
      · intro k hk hjk
        rw [getD_dropLast _ _ (by omega)]
        exact hmax k (by omega) hjk
    rw [shiftTableCore_eq, hli]
    dsimp only
    have heq2 : pattern.length - j - 1 = pattern.length - 1 - j := by omega
    rw [heq2]
  · intro c hnone hlast
    have hli : lastIdx pattern.dropLast c = none := by
      cases hli : lastIdx pattern.dropLast c with
      | none => rfl
      | some j =>
        have h1 := lastIdx_getD hli
        have h2 := lastIdx_lt hli
        rw [getD_dropLast _ _ h2] at h1
        exact absurd h1 (hnone j (by omega))
    rw [shiftTableCore_eq, hli, getLast?_eq_getD pattern hp]
    dsimp only
    rw [if_pos hlast.symm]
  · intro c hnone hlast
    have hli : lastIdx pattern.dropLast c = none := by
      cases hli : lastIdx pattern.dropLast c with
      | none => rfl
      | some j =>
        have h1 := lastIdx_getD hli
        have h2 := lastIdx_lt hli
        rw [getD_dropLast _ _ h2] at h1
        exact absurd h1 (hnone j (by omega))
    rw [shiftTableCore_eq, hli, getLast?_eq_getD pattern hp]
    dsimp only
    rw [if_neg (fun hh => hlast hh.symm)]

/-- Witness for C7 at pattern "aba": the unit a keeps the shift 2 from its
earlier occurrence (the fallback does not overwrite it), b is mapped to 1, and
an absent unit c is not a key. -/
theorem spec_c7_witness :
    build_shift_table [('a'), ('b'), ('a')] = some (shiftTableCore [('a'), ('b'), ('a')]) ∧
      shiftTableCore [('a'), ('b'), ('a')] ('a') = some 2 ∧
      shiftTableCore [('a'), ('b'), ('a')] ('b') = some 1 ∧
      shiftTableCore [('a'), ('b'), ('a')] ('c') = none :=
  ⟨(spec_c7 [('a'), ('b'), ('a')] (by decide)).1,
    (spec_c7 [('a'), ('b'), ('a')] (by decide)).2.2.1 0 ('a') (by decide) (by decide) (by decide),
    (spec_c7 [('a'), ('b'), ('a')] (by decide)).2.2.1 1 ('b') (by decide) (by decide) (by decide),
    (spec_c7 [('a'), ('b'), ('a')] (by decide)).2.2.2.2 ('c') (by decide) (by decide)⟩

/-- C8 counterexample: build_shift_table applied to the empty pattern does not
return a mapping: the source evaluates pattern[-1], which raises IndexError,
modelled as none. -/
theorem spec_c8_counterexample : build_shift_table ([] : List Char) = none := rfl

/-- C8 (amended): build_shift_table raises IndexError on the empty pattern; on
every non-empty pattern it returns a mapping without raising an error. -/
theorem spec_c8 (pattern : List Char) (hp : pattern ≠ []) :
    (build_shift_table pattern).isSome = true := by
  unfold build_shift_table
  rw [if_neg hp]
  rfl

/-- Witness for C8 at the pattern "a". -/
theorem spec_c8_witness : (build_shift_table [('a')]).isSome = true :=
  spec_c8 [('a')] (by decide)

/-- C10: for every string s and every positive modulus, polynomial_hash returns
an integer in [0, modulus); in particular polynomial_hash "a" 256 101 is 97,
the code of a reduced mod 101. -/
theorem spec_c10 (s : List Char) (base modulus : Int) (h : 0 < modulus) :
    0 ≤ polynomial_hash s base modulus ∧ polynomial_hash s base modulus < modulus ∧
      polynomial_hash [('a')] 256 101 = 97 :=
  ⟨(polynomial_hash_bounds s base modulus h).1,
    (polynomial_hash_bounds s base modulus h).2, by decide⟩

/-- Witness for C10 at the string "xy", base 3, modulus 7. -/
theorem spec_c10_witness :
    0 ≤ polynomial_hash [('x'), ('y')] 3 7 ∧ polynomial_hash [('x'), ('y')] 3 7 < 7 ∧
      polynomial_hash [('a')] 256 101 = 97 :=
  spec_c10 [('x'), ('y')] 3 7 (by decide)

/-- C1: for every text and every non-empty pattern, each of boyer_moore_search,
kmp_search and rabin_karp_search returns the smallest 0-based index at which
the pattern occurs as a contiguous substring of the text, and -1 when the
pattern occurs nowhere: all three equal firstOccurrenceSpec, the
specification-side smallest-occurrence-or-(-1) function (kmp_search returns
through the Option layer that records the absence of an IndexError). -/
theorem spec_c1 (text pattern : List Char) (hp : pattern ≠ []) :
    boyer_moore_search text pattern = firstOccurrenceSpec text pattern ∧
      kmp_search text pattern = some (firstOccurrenceSpec text pattern) ∧
      rabin_karp_search text pattern = firstOccurrenceSpec text pattern :=
  ⟨bm_correct text pattern hp, kmp_correct text pattern hp, rk_correct text pattern hp⟩

/-- Witness for C1 at text "abcab", pattern "ab". -/
theorem spec_c1_witness :
    boyer_moore_search [('a'), ('b'), ('c'), ('a'), ('b')] [('a'), ('b')]
        = firstOccurrenceSpec [('a'), ('b'), ('c'), ('a'), ('b')] [('a'), ('b')] ∧
      kmp_search [('a'), ('b'), ('c'), ('a'), ('b')] [('a'), ('b')]
        = some (firstOccurrenceSpec [('a'), ('b'), ('c'), ('a'), ('b')] [('a'), ('b')]) ∧
      rabin_karp_search [('a'), ('b'), ('c'), ('a'), ('b')] [('a'), ('b')]
        = firstOccurrenceSpec [('a'), ('b'), ('c'), ('a'), ('b')] [('a'), ('b')] :=
  spec_c1 [('a'), ('b'), ('c'), ('a'), ('b')] [('a'), ('b')] (by decide)

/-- C2 counterexample: at text "a" and the empty pattern the three searches do
not return equal results: boyer_moore_search and rabin_karp_search return -1,
while kmp_search raises IndexError (modelled as none) instead of returning. -/
theorem spec_c2_counterexample :
    boyer_moore_search [('a')] [] = -1 ∧ rabin_karp_search [('a')] [] = -1 ∧
      kmp_search [('a')] [] = none :=
  ⟨by decide, by decide, kmp_nil_pattern ('a') []⟩

/-- C2 (amended): for every (text, pattern) pair in which the pattern is
non-empty or the text is empty, the three searches return equal results:
kmp_search returns exactly the value of boyer_moore_search and
rabin_karp_search equals boyer_moore_search.  In the remaining case (empty
pattern, non-empty text) kmp_search raises IndexError while the other two
return -1. -/
theorem spec_c2 (text pattern : List Char) (h : pattern ≠ [] ∨ text = []) :
    kmp_search text pattern = some (boyer_moore_search text pattern) ∧
      rabin_karp_search text pattern = boyer_moore_search text pattern := by
  rcases h with hp | rfl
  · rw [bm_correct text pattern hp, kmp_correct text pattern hp, rk_correct text pattern hp]
    exact ⟨rfl, rfl⟩
  · rcases eq_or_ne pattern [] with rfl | hp
    · refine ⟨?_, by decide⟩
      rw [kmp_empty_text]
      rfl
    · rw [bm_correct [] pattern hp, kmp_correct [] pattern hp, rk_correct [] pattern hp]
      exact ⟨rfl, rfl⟩

/-- Witness for C2 at text "ba", pattern "a". -/
theorem spec_c2_witness :
    kmp_search [('b'), ('a')] [('a')] = some (boyer_moore_search [('b'), ('a')] [('a')]) ∧
      rabin_karp_search [('b'), ('a')] [('a')] = boyer_moore_search [('b'), ('a')] [('a')] :=
  spec_c2 [('b'), ('a')] [('a')] (Or.inl (by decide))

/-- C3 counterexample: kmp_search("x", "") does not return the sentinel -1: it
raises IndexError reading pattern[0] (modelled as none). -/
theorem spec_c3_counterexample : kmp_search [('x')] [] = none :=
  kmp_nil_pattern ('x') []

/-- C3 (amended): whenever the pattern is empty, the text is empty, or the
pattern is longer than the text, boyer_moore_search and rabin_karp_search
return -1 and never raise; kmp_search returns -1 in those cases too except
when the pattern is empty and the text non-empty, where it raises IndexError
(none) instead. -/
theorem spec_c3 (text pattern : List Char)
    (h : pattern = [] ∨ text = [] ∨ text.length < pattern.length) :
    boyer_moore_search text pattern = -1 ∧ rabin_karp_search text pattern = -1 ∧
      (pattern = [] → text ≠ [] → kmp_search text pattern = none) ∧
      ((pattern ≠ [] ∨ text = []) → kmp_search text pattern = some (-1)) := by
  refine ⟨?_, ?_, ?_, ?_⟩
  · rcases h with hp | ht | hlen2
    · unfold boyer_moore_search
      rw [if_pos (Or.inl hp)]
    · unfold boyer_moore_search
      rw [if_pos (Or.inr ht)]
    · rcases eq_or_ne pattern [] with rfl | hp
      · unfold boyer_moore_search
        rw [if_pos (Or.inl rfl)]
      · rw [bm_correct text pattern hp]
        exact firstOccurrenceSpec_eq_neg_of_long hlen2
  · rcases eq_or_ne pattern [] with rfl | hp
    · unfold rabin_karp_search
      simp
    · rw [rk_correct text pattern hp]
      apply firstOccurrenceSpec_eq_neg_of_long
      rcases h with hp2 | ht | hl
      · exact absurd hp2 hp
      · rw [ht]
        simpa using List.length_pos.mpr hp
      · exact hl
  · rintro rfl hne
    cases text with
    | nil => exact absurd rfl hne
    | cons a t => exact kmp_nil_pattern a t
  · intro h2
    rcases h2 with hp | rfl
    · rw [kmp_correct text pattern hp]
      have hneg : firstOccurrenceSpec text pattern = -1 := by
        apply firstOccurrenceSpec_eq_neg_of_long
        rcases h with hp2 | ht | hl
        · exact absurd hp2 hp
        · rw [ht]
          simpa using List.length_pos.mpr hp
        · exact hl
      rw [hneg]
    · exact kmp_empty_text pattern

/-- Witness for C3 at text "x" with the empty pattern: the two guarded
searches return -1 and kmp_search raises. -/
theorem spec_c3_witness :
    boyer_moore_search [('x')] [] = -1 ∧ rabin_karp_search [('x')] [] = -1 ∧
      kmp_search [('x')] [] = none :=
  ⟨(spec_c3 [('x')] [] (Or.inl rfl)).1, (spec_c3 [('x')] [] (Or.inl rfl)).2.1,
    (spec_c3 [('x')] [] (Or.inl rfl)).2.2.1 rfl (by decide)⟩

/-- C5 counterexample: kmp_search on text "ABABDABACDABABCABAB" and pattern
"ABABCABAB" does not return 15: the pattern already occurs at index 10. -/
theorem spec_c5_counterexample :
    kmp_search
        [('A'), ('B'), ('A'), ('B'), ('D'), ('A'), ('B'), ('A'), ('C'), ('D'), ('A'), ('B'),
          ('A'), ('B'), ('C'), ('A'), ('B'), ('A'), ('B')]
        [('A'), ('B'), ('A'), ('B'), ('C'), ('A'), ('B'), ('A'), ('B')] ≠ some 15 := by
  have h := kmp_correct
    [('A'), ('B'), ('A'), ('B'), ('D'), ('A'), ('B'), ('A'), ('C'), ('D'), ('A'), ('B'),
      ('A'), ('B'), ('C'), ('A'), ('B'), ('A'), ('B')]
    [('A'), ('B'), ('A'), ('B'), ('C'), ('A'), ('B'), ('A'), ('B')] (by decide)
  rw [@firstOccurrenceSpec_eq_of
    [('A'), ('B'), ('A'), ('B'), ('D'), ('A'), ('B'), ('A'), ('C'), ('D'), ('A'), ('B'),
      ('A'), ('B'), ('C'), ('A'), ('B'), ('A'), ('B')]
    [('A'), ('B'), ('A'), ('B'), ('C'), ('A'), ('B'), ('A'), ('B')] 10
    (by decide) (by decide)] at h
  rw [h]
  decide

/-- C5 (amended): kmp_search applied to the text "ABABDABACDABABCABAB" and the
pattern "ABABCABAB" returns 10, the smallest index at which the pattern occurs
(the spec states 15, but the pattern occurs earlier, at index 10). -/
theorem spec_c5 :
    kmp_search
        [('A'), ('B'), ('A'), ('B'), ('D'), ('A'), ('B'), ('A'), ('C'), ('D'), ('A'), ('B'),
          ('A'), ('B'), ('C'), ('A'), ('B'), ('A'), ('B')]
        [('A'), ('B'), ('A'), ('B'), ('C'), ('A'), ('B'), ('A'), ('B')] = some 10 := by
  have h := kmp_correct
    [('A'), ('B'), ('A'), ('B'), ('D'), ('A'), ('B'), ('A'), ('C'), ('D'), ('A'), ('B'),
      ('A'), ('B'), ('C'), ('A'), ('B'), ('A'), ('B')]
    [('A'), ('B'), ('A'), ('B'), ('C'), ('A'), ('B'), ('A'), ('B')] (by decide)
  rw [@firstOccurrenceSpec_eq_of
    [('A'), ('B'), ('A'), ('B'), ('D'), ('A'), ('B'), ('A'), ('C'), ('D'), ('A'), ('B'),
      ('A'), ('B'), ('C'), ('A'), ('B'), ('A'), ('B')]
    [('A'), ('B'), ('A'), ('B'), ('C'), ('A'), ('B'), ('A'), ('B')] 10
    (by decide) (by decide)] at h
  rw [h]
  decide

/-- C6: for every non-empty pattern and every position i in it, entry i of
compute_lps(pattern) equals the length of the longest proper prefix of
pattern[0..=i] that is also a suffix of it: the entry is such a prefix-suffix
length (isBorder), and every such length is at most the entry. -/
theorem spec_c6 (pattern : List Char) (i : Nat) (h : i < pattern.length) :
    isBorder pattern (i + 1) ((compute_lps pattern).getD i 0) ∧
      ∀ b, isBorder pattern (i + 1) b → b ≤ (compute_lps pattern).getD i 0 :=
  (compute_lps_correct pattern).2 i h

/-- Witness for C6 at pattern "aab", position 1. -/
theorem spec_c6_witness :
    isBorder [('a'), ('a'), ('b')] 2 ((compute_lps [('a'), ('a'), ('b')]).getD 1 0) :=
  (spec_c6 [('a'), ('a'), ('b')] 1 (by decide)).1

/-- C9: for every array of numbers (modelled as exact rationals) sorted in
non-decreasing order and every query x, float_binary_search returns a pair
whose first component is the count of comparisons performed (the loop performs
exactly one comparison per iteration: fbsCompareCount) and whose second
component is the smallest element of the array that is at least x (minGE),
none when no element is at least x. -/
theorem spec_c9 (arr : List ℚ) (x : ℚ) (hs : arr.Sorted (· ≤ ·)) :
    (float_binary_search arr x).1 = fbsCompareCount arr x 0 ((arr.length : Int) - 1) ∧
      (float_binary_search arr x).2 = minGE arr x := by
  rw [fbs_correct arr x hs]
  exact ⟨rfl, rfl⟩

/-- Witness for C9 at arr = [1, 2, 4] and x = 2. -/
theorem spec_c9_witness :
    (float_binary_search [(1 : ℚ), 2, 4] 2).1
        = fbsCompareCount [(1 : ℚ), 2, 4] 2 0 (([(1 : ℚ), 2, 4].length : Int) - 1) ∧
      (float_binary_search [(1 : ℚ), 2, 4] 2).2 = minGE [(1 : ℚ), 2, 4] 2 :=
  spec_c9 [(1 : ℚ), 2, 4] 2 (by decide)
